import Mathlib

/-!
Verification of the profusion load-testing library core against its
specification.  Definitions are shallow embeddings of the Rust source:
machine integers are modelled as `Nat` with explicit reduction modulo
`2 ^ 64` wherever the source performs a wrapping cast or wrapping
arithmetic on `u64`/`usize`; durations are modelled by their nanosecond
count (or by a seconds/subsecond-nanos pair where the source manipulates
the two fields separately); fallible results are `Except` values.
-/

namespace Profusion

/-- Modulus of the 64-bit machine integers (`u64` / `usize`) used by the source. -/
def U64 : Nat := 2 ^ 64

/-! ### StartTime::window (src/start_time.rs)

`StartTime::window` takes the elapsed time since the monotonic anchor and a
bucket size, both in nanoseconds (`u128` in the source, which never
overflows for representable durations), and returns the bucket boundary.
The final `as u64` cast in `Duration::from_nanos(target_duration as u64)`
truncates modulo `2 ^ 64`.
-/

/-- Shallow embedding of `StartTime::window`: `elapsed` and `bucket` are
nanosecond counts; mirrors the `u128` division/remainder and the
`remainder.cmp(&(bucket_nanos / 2))` comparison (round up unless the
remainder is strictly below half the bucket, with `/` the flooring
division), followed by the truncating `as u64` cast. -/
def windowNanos (bucket elapsed : Nat) : Nat :=
  if bucket = 0 then elapsed
  else
    let buckets := elapsed / bucket
    let remainder := elapsed % bucket
    let target := buckets * bucket + (if remainder < bucket / 2 then 0 else bucket)
    target % U64

/-- The window value as described by the specification text: round up
exactly when `remainder * 2 >= size`.  Written from the spec's words for
comparison with `windowNanos`, which is written from the source. -/
def specWindowNanos (bucket elapsed : Nat) : Nat :=
  if bucket = 0 then elapsed
  else (elapsed / bucket + (if bucket ≤ 2 * (elapsed % bucket) then 1 else 0)) * bucket

/-- C1 counterexample: with bucket size `3` ns and elapsed `1` ns the code
rounds up to `3` (since `1 ≥ 3 / 2 = 1`), while the claimed formula
`(q + (r*2 >= w ? 1 : 0)) * w` yields `0` (since `2 < 3`); moreover the
claimed bound `|e - window| ≤ w/2` fails: `|1 - 3| * 2 = 4 > 3`. -/
theorem c1_window_round_half_up_counterexample :
    windowNanos 3 1 = 3 ∧ specWindowNanos 3 1 = 0 ∧
      ¬ (((windowNanos 3 1 : Int) - 1).natAbs * 2 ≤ 3) := by
  refine ⟨by decide, by decide, ?_⟩
  have h : windowNanos 3 1 = 3 := by decide
  rw [h]
  decide

/-- C1 (amended): for `w = 0` the elapsed time is returned unchanged; for
`w > 0`, provided the result fits in `u64` (no truncation by the `as u64`
cast, guaranteed by `e + w < 2^64`), the result is
`(e/w + (e%w < w/2 ? 0 : 1)) * w`: a multiple of `w` that differs from `e`
by at most `⌈w/2⌉`, rounding up exactly when `e % w ≥ ⌊w/2⌋`. -/
theorem c1_window_rounds_to_bucket (w e : Nat) (hov : e + w < U64) :
    (w = 0 → windowNanos w e = e) ∧
    (0 < w →
      windowNanos w e = (e / w + if e % w < w / 2 then 0 else 1) * w ∧
      windowNanos w e % w = 0 ∧
      ((windowNanos w e : Int) - e).natAbs ≤ (w + 1) / 2) := by
  have hU : U64 = 18446744073709551616 := by norm_num [U64]
  constructor
  · intro hw; simp [windowNanos, hw]
  · intro hw
    have hwne : ¬ w = 0 := Nat.pos_iff_ne_zero.mp hw
    set q := e / w with hqdef
    set r := e % w with hrdef
    have hdm : q * w + r = e := Nat.div_add_mod' e w
    have hrem : r < w := Nat.mod_lt e hw
    have htarget : q * w + (if r < w / 2 then 0 else w) < U64 := by
      rcases le_or_lt (w / 2) r with h | h
      · rw [if_neg (by omega)]; omega
      · rw [if_pos h]; omega
    have hwin : windowNanos w e = q * w + (if r < w / 2 then 0 else w) := by
      simp only [windowNanos, if_neg hwne, ← hqdef, ← hrdef]
      exact Nat.mod_eq_of_lt htarget
    have hform : windowNanos w e = (q + if r < w / 2 then 0 else 1) * w := by
      rw [hwin]
      rcases le_or_lt (w / 2) r with h | h
      · rw [if_neg (by omega), if_neg (by omega), Nat.add_mul, Nat.one_mul]
      · rw [if_pos h, if_pos h, Nat.add_mul, Nat.zero_mul, Nat.add_zero]
    refine ⟨hform, ?_, ?_⟩
    · rw [hform]; exact Nat.mul_mod_left _ w
    · rw [hwin]
      rcases le_or_lt (w / 2) r with h | h
      · rw [if_neg (by omega)]
        omega
      · rw [if_pos h]
        omega

/-- C1 witness: concrete instance of `c1_window_rounds_to_bucket` with a
100 ns bucket and 350 ns elapsed (the exact midpoint rounds up to 400). -/
theorem c1_window_rounds_to_bucket_witness :
    windowNanos 100 350 = 400 ∧ windowNanos 100 349 = 300 ∧ windowNanos 0 411 = 411 := by
  have h₁ := (c1_window_rounds_to_bucket 100 350 (by decide)).2 (by decide)
  have h₂ := (c1_window_rounds_to_bucket 100 349 (by decide)).2 (by decide)
  have h₃ := (c1_window_rounds_to_bucket 0 411 (by decide)).1 rfl
  exact ⟨by rw [h₁.1]; decide, by rw [h₂.1]; decide, h₃⟩

/-! ### AggregateScale (profusion/src/aggregate/scale.rs)

`Duration` is modelled as the seconds / subsecond-nanoseconds pair that the
source reads through `as_secs` / `subsec_nanos` / `subsec_micros` /
`subsec_millis`.  The source multiplies `as_secs()` (a `u64`) by the unit
rate with plain `u64` arithmetic, which wraps modulo `2 ^ 64`.
-/

/-- A `std::time::Duration`: whole seconds and subsecond nanoseconds.
A well-formed value has `nanos < 1_000_000_000`. -/
structure Duration where
  secs : Nat
  nanos : Nat
deriving DecidableEq, Repr

/-- Nanoseconds per second, as in the source constant `NANOS_PER_SEC`. -/
def NANOS_PER_SEC : Nat := 1000000000

/-- Microseconds per second, as in the source constant `MICROS_PER_SEC`. -/
def MICROS_PER_SEC : Nat := 1000000

/-- Milliseconds per second, as in the source constant `MILLIS_PER_SEC`. -/
def MILLIS_PER_SEC : Nat := 1000

/-- Well-formedness of a `Duration`: the subsecond part is below one second. -/
def Duration.wf (d : Duration) : Prop := d.nanos < NANOS_PER_SEC

/-- Total length of a duration in nanoseconds (mathematical value, used to
state ordering and distance). -/
def Duration.toNanos (d : Duration) : Nat := d.secs * NANOS_PER_SEC + d.nanos

/-- `Duration::subsec_micros`. -/
def Duration.subsecMicros (d : Duration) : Nat := d.nanos / 1000

/-- `Duration::subsec_millis`. -/
def Duration.subsecMillis (d : Duration) : Nat := d.nanos / 1000000

/-- `Duration::from_nanos`. -/
def Duration.fromNanos (v : Nat) : Duration := ⟨v / NANOS_PER_SEC, v % NANOS_PER_SEC⟩

/-- `Duration::from_micros`. -/
def Duration.fromMicros (v : Nat) : Duration := ⟨v / MICROS_PER_SEC, v % MICROS_PER_SEC * 1000⟩

/-- `Duration::from_millis`. -/
def Duration.fromMillis (v : Nat) : Duration := ⟨v / MILLIS_PER_SEC, v % MILLIS_PER_SEC * 1000000⟩

/-- `Duration::from_secs`. -/
def Duration.fromSecs (v : Nat) : Duration := ⟨v, 0⟩

/-- The `AggregateScale` enum. -/
inductive AggregateScale where
  | Nanoseconds
  | Microseconds
  | Milliseconds
  | Seconds
deriving DecidableEq, Repr

/-- `AggregateScale::duration_to_value`: the `u64` arithmetic of the source
(`as_secs() * RATE + subsec_xxx()`) wraps modulo `2 ^ 64`. -/
def AggregateScale.durationToValue : AggregateScale → Duration → Nat
  | .Nanoseconds, d => (d.secs * NANOS_PER_SEC + d.nanos) % U64
  | .Microseconds, d => (d.secs * MICROS_PER_SEC + d.subsecMicros) % U64
  | .Milliseconds, d => (d.secs * MILLIS_PER_SEC + d.subsecMillis) % U64
  | .Seconds, d => d.secs % U64

/-- `AggregateScale::value_to_duration`. -/
def AggregateScale.valueToDuration : AggregateScale → Nat → Duration
  | .Nanoseconds, v => Duration.fromNanos v
  | .Microseconds, v => Duration.fromMicros v
  | .Milliseconds, v => Duration.fromMillis v
  | .Seconds, v => Duration.fromSecs v

/-- Nanoseconds in one unit of each scale. -/
def AggregateScale.unitNanos : AggregateScale → Nat
  | .Nanoseconds => 1
  | .Microseconds => 1000
  | .Milliseconds => 1000000
  | .Seconds => 1000000000

/-- The conversion to a value does not overflow `u64` for this duration. -/
def AggregateScale.noOverflow (s : AggregateScale) (d : Duration) : Prop :=
  d.toNanos / s.unitNanos < U64

/-- On well-formed, non-overflowing inputs `duration_to_value` is the
flooring division of the total nanosecond count by the unit size. -/
theorem durationToValue_eq_div (s : AggregateScale) (d : Duration)
    (hwf : d.wf) (hov : s.noOverflow d) :
    s.durationToValue d = d.toNanos / s.unitNanos := by
  have hU : U64 = 18446744073709551616 := by norm_num [U64]
  rcases d with ⟨a, n⟩
  unfold AggregateScale.noOverflow Duration.toNanos at hov
  cases s <;>
    simp only [Duration.wf, AggregateScale.durationToValue, AggregateScale.unitNanos,
      Duration.toNanos, Duration.subsecMicros, Duration.subsecMillis, NANOS_PER_SEC,
      MICROS_PER_SEC, MILLIS_PER_SEC] at hwf hov ⊢ <;>
    rw [Nat.mod_eq_of_lt (by omega)] <;> omega

/-- `value_to_duration` produces a well-formed duration of exactly
`unit * v` nanoseconds. -/
theorem valueToDuration_toNanos (s : AggregateScale) (v : Nat) :
    (s.valueToDuration v).toNanos = s.unitNanos * v ∧ (s.valueToDuration v).wf := by
  cases s <;>
    simp only [AggregateScale.valueToDuration, AggregateScale.unitNanos, Duration.toNanos,
      Duration.fromNanos, Duration.fromMicros, Duration.fromMillis, Duration.fromSecs,
      Duration.wf, NANOS_PER_SEC, MICROS_PER_SEC, MILLIS_PER_SEC] <;>
    omega

/-- C6 counterexample: the claim asserts monotonicity for *every* duration,
but `duration_to_value` multiplies `as_secs()` by the unit rate with
wrapping `u64` arithmetic: at scale `Nanoseconds`, the duration of
`18446744074` seconds is strictly longer than one second, yet its value
(`18446744074 * 10^9 mod 2^64 = 290448384`) is strictly below the value of
one second (`10^9`), so monotonicity fails. -/
theorem c6_scale_monotone_counterexample :
    Duration.toNanos ⟨1, 0⟩ < Duration.toNanos ⟨18446744074, 0⟩ ∧
      Duration.wf ⟨1, 0⟩ ∧ Duration.wf ⟨18446744074, 0⟩ ∧
      AggregateScale.durationToValue .Nanoseconds ⟨18446744074, 0⟩ <
        AggregateScale.durationToValue .Nanoseconds ⟨1, 0⟩ := by
  refine ⟨by decide, by norm_num [Duration.wf, NANOS_PER_SEC], by norm_num [Duration.wf, NANOS_PER_SEC], ?_⟩
  show 18446744074000000000 % U64 < 1000000000 % U64
  norm_num [U64]

/-- C6 (amended): restricted to well-formed durations whose converted value
does not overflow `u64`, `duration_to_value` is monotone and
`value_to_duration` inverts it to within strictly less than one unit of the
scale (the reconstructed duration never exceeds the original); the concrete
microsecond round trip of `Duration::new(29, 20000)` holds exactly. -/
theorem c6_scale_roundtrip (s : AggregateScale) (d1 d2 : Duration)
    (h1 : d1.wf) (h2 : d2.wf) (hov1 : s.noOverflow d1) (hov2 : s.noOverflow d2) :
    (d1.toNanos ≤ d2.toNanos → s.durationToValue d1 ≤ s.durationToValue d2) ∧
    (s.valueToDuration (s.durationToValue d1)).toNanos ≤ d1.toNanos ∧
    d1.toNanos - (s.valueToDuration (s.durationToValue d1)).toNanos < s.unitNanos ∧
    AggregateScale.durationToValue .Microseconds ⟨29, 20000⟩ = 29000020 ∧
    AggregateScale.valueToDuration .Microseconds 29000020 = ⟨29, 20000⟩ := by
  have hunit : 0 < s.unitNanos := by cases s <;> simp [AggregateScale.unitNanos]
  have hv1 := durationToValue_eq_div s d1 h1 hov1
  have hv2 := durationToValue_eq_div s d2 h2 hov2
  have hrt := valueToDuration_toNanos s (s.durationToValue d1)
  refine ⟨?_, ?_, ?_, by decide, by decide⟩
  · intro hle
    rw [hv1, hv2]
    exact Nat.div_le_div_right hle
  · rw [hrt.1, hv1]
    exact Nat.mul_div_le d1.toNanos s.unitNanos
  · rw [hrt.1, hv1]
    have := Nat.mod_lt d1.toNanos hunit
    have := Nat.div_add_mod d1.toNanos s.unitNanos
    omega

/-- C6 witness: the amended theorem applied to the concrete pair of
durations `29 s 20 µs` and `30 s` at microsecond scale. -/
theorem c6_scale_roundtrip_witness :
    AggregateScale.durationToValue .Microseconds ⟨29, 20000⟩ ≤
      AggregateScale.durationToValue .Microseconds ⟨30, 0⟩ ∧
    AggregateScale.valueToDuration .Microseconds
      (AggregateScale.durationToValue .Microseconds ⟨29, 20000⟩) = ⟨29, 20000⟩ := by
  have h := c6_scale_roundtrip .Microseconds ⟨29, 20000⟩ ⟨30, 0⟩
    (by norm_num [Duration.wf, NANOS_PER_SEC]) (by norm_num [Duration.wf, NANOS_PER_SEC])
    (by show (29 * 1000000000 + 20000 : Nat) / 1000 < U64; norm_num [U64])
    (by show (30 * 1000000000 + 0 : Nat) / 1000 < U64; norm_num [U64])
  exact ⟨h.1 (by decide), by rw [h.2.2.2.1]; decide⟩

/-! ### MetricMeasurer (profusion/src/measurer.rs)

The aggregate inside the measurer is used only through
`MetricAggregate::add_entry`, so it is modelled as the list of
`(metric, latency, error-present)` triples passed to `add_entry`, in call
order.  An asynchronous action is modelled by the pair of its running time
`dur` (nanoseconds) and its result.  `tokio::time::timeout(maxD, action)`
is modelled by its documented semantics on the virtual clock: the action's
own result when it completes within `maxD`, and an elapsed error at
exactly the deadline otherwise (so `start.elapsed()` reads `maxD` in the
timeout branch, as the paused-clock tests of the source assert).
-/

/-- The `MetricRecordError` taxonomy.  The boxed payload of `Dynamic` is
not inspected by any code under scrutiny and is dropped. -/
inductive MetricRecordError where
  | Timeout (d : Nat)
  | Dynamic
deriving DecidableEq, Repr

/-- One `add_entry` call observed by the aggregate: metric, latency in
nanoseconds, and whether an error reference was passed. -/
structure MeasuredEntry (M : Type) where
  metric : M
  latency : Nat
  isError : Bool
deriving DecidableEq, Repr

/-- The `MetricMeasurer` struct: optional timeout (nanoseconds) and the
recorded entries standing for the wrapped aggregate. -/
structure MetricMeasurer (M : Type) where
  timeout : Option Nat
  aggregate : List (MeasuredEntry M)

/-- Whether an `Except` is an error (`result.as_ref().err().is_some()`). -/
def errFlag : Except ε α → Bool
  | .ok _ => false
  | .error _ => true

/-- `MetricMeasurer::execute_with_timeout`, returning the pair of the
elapsed time observed by the enclosing `try_measure` and the result. -/
def MetricMeasurer.executeWithTimeout (m : MetricMeasurer M) (dur : Nat)
    (res : Except ε α) : Nat × Except MetricRecordError α :=
  match m.timeout with
  | some maxDuration =>
      if maxDuration < dur then (maxDuration, .error (.Timeout maxDuration))
      else (dur, res.mapError fun _ => .Dynamic)
  | none => (dur, res.mapError fun _ => .Dynamic)

/-- `MetricMeasurer::try_measure`: run the action under the optional
timeout, record exactly one entry, return the result. -/
def MetricMeasurer.tryMeasure (m : MetricMeasurer M) (metric : M) (dur : Nat)
    (res : Except ε α) : MetricMeasurer M × Except MetricRecordError α :=
  let r := m.executeWithTimeout dur res
  ({ m with aggregate := m.aggregate ++ [⟨metric, r.1, errFlag r.2⟩] }, r.2)

/-- `MetricMeasurer::measure`: wraps the infallible action's output in
`Ok::<_, Infallible>` and delegates to `try_measure`. -/
def MetricMeasurer.measure (m : MetricMeasurer M) (metric : M) (dur : Nat)
    (value : α) : MetricMeasurer M × Except MetricRecordError α :=
  m.tryMeasure metric dur (Except.ok (ε := Empty) value)

/-- `MetricMeasurer::add_measurement`: records a pre-measured sample. -/
def MetricMeasurer.addMeasurement (m : MetricMeasurer M) (metric : M) (latency : Nat)
    (error : Option MetricRecordError) : MetricMeasurer M :=
  { m with aggregate := m.aggregate ++ [⟨metric, latency, error.isSome⟩] }

/-- C2: each of `measure`, `try_measure` and `add_measurement` appends
exactly one entry to the aggregate; when the configured timeout elapses
before the action completes, the recorded entry carries latency exactly
equal to the timeout and the error flag, and the returned error is
`Timeout`; when the action returns an error, the recorded entry's error
flag is set. -/
theorem c2_measurer_records_once {M ε α : Type} (m : MetricMeasurer M) (metric : M)
    (dur : Nat) (res : Except ε α) (latency : Nat) (error : Option MetricRecordError)
    (value : α) :
    (m.tryMeasure metric dur res).1.aggregate.length = m.aggregate.length + 1 ∧
    (m.measure metric dur value).1.aggregate.length = m.aggregate.length + 1 ∧
    (m.addMeasurement metric latency error).aggregate.length = m.aggregate.length + 1 ∧
    (∀ maxD, m.timeout = some maxD → maxD < dur →
      (m.tryMeasure metric dur res).1.aggregate.getLast? = some ⟨metric, maxD, true⟩ ∧
      (m.tryMeasure metric dur res).2 = .error (.Timeout maxD)) ∧
    (errFlag res = true →
      ((m.tryMeasure metric dur res).1.aggregate.getLast?.map MeasuredEntry.isError) =
        some true) := by
  refine ⟨?_, ?_, ?_, ?_, ?_⟩
  · simp [MetricMeasurer.tryMeasure]
  · simp [MetricMeasurer.measure, MetricMeasurer.tryMeasure]
  · simp [MetricMeasurer.addMeasurement]
  · intro maxD htimeout hlate
    simp [MetricMeasurer.tryMeasure, MetricMeasurer.executeWithTimeout, htimeout, hlate,
      errFlag, List.getLast?_concat]
  · intro herr
    rcases res with e | v
    · rcases htimeout : m.timeout with _ | maxD
      · simp [MetricMeasurer.tryMeasure, MetricMeasurer.executeWithTimeout, htimeout,
          errFlag, Except.mapError, List.getLast?_concat]
      · rcases Nat.lt_or_ge maxD dur with hlt | hge
        · simp [MetricMeasurer.tryMeasure, MetricMeasurer.executeWithTimeout, htimeout,
            hlt, errFlag, List.getLast?_concat]
        · simp [MetricMeasurer.tryMeasure, MetricMeasurer.executeWithTimeout, htimeout,
            Nat.not_lt.mpr hge, errFlag, Except.mapError, List.getLast?_concat]
    · simp [errFlag] at herr

/-- C2 witness: a measurer with a 10 ms timeout running a 15 ms action
records one entry of latency exactly 10 ms with the error flag set. -/
theorem c2_measurer_records_once_witness :
    (MetricMeasurer.tryMeasure (M := Nat) (ε := Unit) ⟨some 10000000, []⟩ 7 15000000
        (.ok (42 : Nat))).1.aggregate = [⟨7, 10000000, true⟩] ∧
    (MetricMeasurer.tryMeasure (M := Nat) (ε := Unit) ⟨some 10000000, []⟩ 7 15000000
        (.ok (42 : Nat))).2 = .error (.Timeout 10000000) := by
  have h := c2_measurer_records_once (M := Nat) (ε := Unit) (α := Nat)
    ⟨some 10000000, []⟩ 7 15000000 (.ok 42) 0 none 42
  have h' := h.2.2.2.1 10000000 rfl (by decide)
  refine ⟨?_, h'.2⟩
  have hlen := h.1
  rcases hagg : (MetricMeasurer.tryMeasure (M := Nat) (ε := Unit) ⟨some 10000000, []⟩ 7
      15000000 (.ok (42 : Nat))).1.aggregate with _ | ⟨x, _ | ⟨y, t⟩⟩
  · simp [hagg] at hlen
  · have := h'.1
    rw [hagg] at this
    simp at this
    simp [this]
  · simp [hagg] at hlen

/-- C3 counterexample: the claim says `measure` never returns an error for
any measurer, but with a configured timeout of 10 ms and an infallible
action running 15 ms, `measure` returns the `Timeout` error. -/
theorem c3_measure_timeout_counterexample :
    (MetricMeasurer.measure (M := Nat) ⟨some 10000000, []⟩ 0 15000000 (42 : Nat)).2 =
      .error (.Timeout 10000000) := rfl

/-- C3 (amended): `measure` returns the action's output as a success
whenever no timeout is configured, or the action completes within the
configured timeout; if a configured timeout elapses first, it returns the
`Timeout` error instead. -/
theorem c3_measure_success {M α : Type} (m : MetricMeasurer M) (metric : M) (dur : Nat)
    (value : α) :
    (m.timeout = none → (m.measure metric dur value).2 = .ok value) ∧
    (∀ maxD, m.timeout = some maxD → dur ≤ maxD →
      (m.measure metric dur value).2 = .ok value) ∧
    (∀ maxD, m.timeout = some maxD → maxD < dur →
      (m.measure metric dur value).2 = .error (.Timeout maxD)) := by
  refine ⟨?_, ?_, ?_⟩
  · intro h
    simp [MetricMeasurer.measure, MetricMeasurer.tryMeasure,
      MetricMeasurer.executeWithTimeout, h, Except.mapError]
  · intro maxD h hle
    simp [MetricMeasurer.measure, MetricMeasurer.tryMeasure,
      MetricMeasurer.executeWithTimeout, h, Nat.not_lt.mpr hle, Except.mapError]
  · intro maxD h hlt
    simp [MetricMeasurer.measure, MetricMeasurer.tryMeasure,
      MetricMeasurer.executeWithTimeout, h, hlt]

/-- C3 witness: without a timeout a 15 ms action's value is returned as a
success; with a 20 ms timeout a 15 ms action also succeeds. -/
theorem c3_measure_success_witness :
    (MetricMeasurer.measure (M := Nat) ⟨none, []⟩ 0 15000000 (42 : Nat)).2 = .ok 42 ∧
    (MetricMeasurer.measure (M := Nat) ⟨some 20000000, []⟩ 0 15000000 (42 : Nat)).2 =
      .ok 42 :=
  ⟨(c3_measure_success ⟨none, []⟩ 0 15000000 42).1 rfl,
    (c3_measure_success ⟨some 20000000, []⟩ 0 15000000 42).2.1 20000000 rfl (by decide)⟩

/-! ### Limiter algebra (src/executor/limit/)

A limiter is represented by its `apply` function `RealtimeStatus → Limit`,
which is all `CompoundLimiter::apply` uses of the `Limiter` trait.
-/

/-- Result of `Limiter::apply` (`Limit` enum); the wait duration is in
nanoseconds. -/
inductive Limit where
  | None
  | Wait (d : Nat)
  | Shutdown
deriving DecidableEq, Repr

/-- Counters exposed by the `RealtimeStatus` trait. -/
structure RealtimeStatus where
  operations : Nat
  connections : Nat
  totalOperations : Nat
deriving DecidableEq, Repr

/-- `ConcurrencyLimiter` fields. -/
structure ConcurrencyLimiter where
  maxConcurrency : Nat
  waitFor : Nat

/-- `ConcurrencyLimiter::apply`: wait when active operations reach the
configured maximum. -/
def ConcurrencyLimiter.apply (l : ConcurrencyLimiter) (s : RealtimeStatus) : Limit :=
  if l.maxConcurrency ≤ s.operations then .Wait l.waitFor else .None

/-- `MaxOperationsLimiter` fields. -/
structure MaxOperationsLimiter where
  maxOperations : Nat

/-- `MaxOperationsLimiter::apply`: shut down when the cumulative operation
count reaches the configured maximum. -/
def MaxOperationsLimiter.apply (l : MaxOperationsLimiter) (s : RealtimeStatus) : Limit :=
  if l.maxOperations ≤ s.totalOperations then .Shutdown else .None

/-- `CompoundLimiter::apply`: the left limiter's decision unless it is
`None`, in which case the right limiter decides. -/
def CompoundLimiter.apply (left right : RealtimeStatus → Limit) (s : RealtimeStatus) : Limit :=
  match left s with
  | .None => right s
  | limit => limit

/-- C7: a compound limiter yields the left decision when it is not `None`
and the right decision otherwise; `Shutdown` from either side propagates
unchanged; and the concrete `Concurrency(10, 10ms).with(MaxOperations(200))`
example evaluates as the specification states on the three statuses. -/
theorem c7_compound_limiter (left right : RealtimeStatus → Limit) (s : RealtimeStatus) :
    CompoundLimiter.apply left right s = (if left s = .None then right s else left s) ∧
    (left s = .Shutdown → CompoundLimiter.apply left right s = .Shutdown) ∧
    (left s = .None → right s = .Shutdown → CompoundLimiter.apply left right s = .Shutdown) ∧
    CompoundLimiter.apply (ConcurrencyLimiter.apply ⟨10, 10000000⟩)
      (MaxOperationsLimiter.apply ⟨200⟩) ⟨5, 0, 100⟩ = .None ∧
    CompoundLimiter.apply (ConcurrencyLimiter.apply ⟨10, 10000000⟩)
      (MaxOperationsLimiter.apply ⟨200⟩) ⟨10, 0, 100⟩ = .Wait 10000000 ∧
    CompoundLimiter.apply (ConcurrencyLimiter.apply ⟨10, 10000000⟩)
      (MaxOperationsLimiter.apply ⟨200⟩) ⟨5, 0, 200⟩ = .Shutdown := by
  refine ⟨?_, ?_, ?_, by decide, by decide, by decide⟩
  · cases h : left s <;> simp [CompoundLimiter.apply, h]
  · intro h; simp [CompoundLimiter.apply, h]
  · intro h h'; simp [CompoundLimiter.apply, h, h']

/-- C7 witness: the compound rule applied to two concrete limiter functions
at a concrete status. -/
theorem c7_compound_limiter_witness :
    CompoundLimiter.apply (fun _ => Limit.None) (fun _ => Limit.Shutdown) ⟨0, 0, 0⟩ =
      Limit.Shutdown ∧
    CompoundLimiter.apply (fun _ => Limit.Shutdown) (fun _ => Limit.None) ⟨0, 0, 0⟩ =
      Limit.Shutdown :=
  ⟨(c7_compound_limiter (fun _ => Limit.None) (fun _ => Limit.Shutdown) ⟨0, 0, 0⟩).2.2.1
      rfl rfl,
    (c7_compound_limiter (fun _ => Limit.Shutdown) (fun _ => Limit.None) ⟨0, 0, 0⟩).2.1 rfl⟩

/-! ### Event and its delta equality (src/report/event.rs, src/time/mod.rs)

Instants are modelled as nanosecond counts on the monotonic clock.
-/

/-- The `EventType` enum. -/
inductive EventType where
  | Success
  | Timeout
  | Error
deriving DecidableEq, Repr

/-- A recorded measurement event. -/
structure Event where
  name : String
  startedAt : Nat
  finishedAt : Nat
  kind : EventType
deriving DecidableEq, Repr

/-- The `EVENT_DELTA` constant: 2 milliseconds, in nanoseconds. -/
def EVENT_DELTA : Nat := 2000000

/-- `cmp_instant_with_delta`: equal instants compare equal, otherwise the
absolute difference must not exceed `delta`. -/
def cmpInstantWithDelta (left right delta : Nat) : Bool :=
  if left = right then true
  else if left < right then decide (right - left ≤ delta)
  else decide (left - right ≤ delta)

/-- The `PartialEq for Event` implementation: names and kinds compare
exactly, the two instants compare through `cmp_instant_with_delta` with
`EVENT_DELTA`. -/
def Event.delta_eq (a b : Event) : Bool :=
  a.name == b.name
    && cmpInstantWithDelta a.startedAt b.startedAt EVENT_DELTA
    && cmpInstantWithDelta a.finishedAt b.finishedAt EVENT_DELTA
    && decide (a.kind = b.kind)

/-- Instants within `delta` of each other compare equal. -/
theorem cmpInstantWithDelta_true (l r delta : Nat)
    (h : l - r ≤ delta ∧ r - l ≤ delta) :
    cmpInstantWithDelta l r delta = true := by
  unfold cmpInstantWithDelta
  rcases Nat.lt_trichotomy l r with hlt | heq | hgt
  · rw [if_neg (by omega), if_pos hlt]; simpa using h.2
  · rw [if_pos heq]
  · rw [if_neg (by omega), if_neg (by omega)]; simpa using h.1

/-- C10: two events with equal name and kind whose start instants and
finish instants each differ by less than 2 ms compare equal; names and
kinds are compared exactly (a mismatch in either makes the comparison
false for any timestamps); and the concrete triple at 0, 2 ms and 4 ms
shows the relation is not transitive. -/
theorem c10_event_delta_equality (a b : Event)
    (hname : a.name = b.name) (hkind : a.kind = b.kind)
    (hs : a.startedAt - b.startedAt < EVENT_DELTA ∧ b.startedAt - a.startedAt < EVENT_DELTA)
    (hf : a.finishedAt - b.finishedAt < EVENT_DELTA ∧
      b.finishedAt - a.finishedAt < EVENT_DELTA) :
    Event.delta_eq a b = true ∧
    (∀ c d : Event, c.name ≠ d.name → Event.delta_eq c d = false) ∧
    (∀ c d : Event, c.kind ≠ d.kind → Event.delta_eq c d = false) ∧
    Event.delta_eq ⟨"e", 0, 0, .Success⟩ ⟨"e", 2000000, 2000000, .Success⟩ = true ∧
    Event.delta_eq ⟨"e", 2000000, 2000000, .Success⟩ ⟨"e", 4000000, 4000000, .Success⟩ = true ∧
    Event.delta_eq ⟨"e", 0, 0, .Success⟩ ⟨"e", 4000000, 4000000, .Success⟩ = false := by
  refine ⟨?_, ?_, ?_, by decide, by decide, by decide⟩
  · have h1 := cmpInstantWithDelta_true a.startedAt b.startedAt EVENT_DELTA
      ⟨Nat.le_of_lt hs.1, Nat.le_of_lt hs.2⟩
    have h2 := cmpInstantWithDelta_true a.finishedAt b.finishedAt EVENT_DELTA
      ⟨Nat.le_of_lt hf.1, Nat.le_of_lt hf.2⟩
    simp [Event.delta_eq, hname, hkind, h1, h2]
  · intro c d h
    simp [Event.delta_eq, h]
  · intro c d h
    simp [Event.delta_eq, h]

/-- C10 witness: the delta equality applied to two concrete events 1 ms
apart. -/
theorem c10_event_delta_equality_witness :
    Event.delta_eq ⟨"step", 0, 5000000, .Success⟩ ⟨"step", 1000000, 6000000, .Success⟩ =
      true :=
  (c10_event_delta_equality ⟨"step", 0, 5000000, .Success⟩ ⟨"step", 1000000, 6000000, .Success⟩
      rfl rfl (by decide) (by decide)).1

/-! ### Timeline aggregate (profusion/src/aggregate/timeline/)

An `AggregateStorage` is modelled by the list of `(metric, value)` records
made into it; `record` appends and `merge` concatenates (bin-wise
histogram addition is count-preserving and unions the recorded samples),
and every `clone` of a storage drops counts (all three storage
implementations clear the histogram counts on clone), so freshly built
items carry the empty record list.  Each `add_entry` call is driven by the
values the aggregate reads from its environment during the call: the
current bucket key (`settings.zero().window(settings.window())`), the
latency duration, the error flag, and the current shared user-counter
value.
-/

/-- A `TimelineItem`: bucket key (nanoseconds), recorded storage samples,
error count and user count. -/
structure TimelineItem (M : Type) where
  time : Nat
  storage : List (M × Nat)
  errors : Nat
  users : Nat
deriving DecidableEq, Repr

/-- `TimelineItem::record`: store one sample. -/
def TimelineItem.record (item : TimelineItem M) (metric : M) (value : Nat) :
    TimelineItem M :=
  { item with storage := item.storage ++ [(metric, value)] }

/-- `TimelineItem::update_counters`: bump the error count when an error is
present and snapshot the user count. -/
def TimelineItem.updateCounters (item : TimelineItem M) (isError : Bool) (users : Nat) :
    TimelineItem M :=
  { item with errors := item.errors + (if isError then 1 else 0), users := users }

/-- `TimelineItem::merge_into`: merge `self` into `other` (storage merge,
maximum of user counts, sum of error counts). -/
def TimelineItem.mergeInto (self other : TimelineItem M) : TimelineItem M :=
  { other with
    storage := other.storage ++ self.storage
    users := max other.users self.users
    errors := other.errors + self.errors }

/-- Environment of one `add_entry` call: the bucket key read from the
clock, the raw latency, the error flag, and the sampled user counter. -/
structure TimelineCall (M : Type) where
  timeWindow : Nat
  metric : M
  latency : Duration
  isError : Bool
  usersNow : Nat

/-- The `TimelineAggregate` struct (settings reduced to the scale, which is
the only settings field `add_entry` uses besides the clock read that is
already an input). -/
structure TimelineAggregate (M : Type) where
  scale : AggregateScale
  timeline : List (TimelineItem M)
  total : TimelineItem M

/-- Apply a function to the last element of a list (the source's
`last_mut` / indexing of the freshly pushed item). -/
def modifyLast (f : α → α) : List α → List α
  | [] => []
  | [x] => [f x]
  | x :: y :: xs => x :: modifyLast f (y :: xs)

/-- `TimelineAggregateBuilder::build`: empty timeline, empty cloned
storage, grand-total item keyed at the current bucket. -/
def TimelineAggregateBuilder.build (scale : AggregateScale) (timeWindow : Nat) :
    TimelineAggregate M :=
  { scale := scale, timeline := [], total := ⟨timeWindow, [], 0, 0⟩ }

/-- `TimelineAggregate::add_entry`: reuse the last timeline item when its
bucket key matches the current one, otherwise push a fresh empty item;
then record the scaled latency and update counters on both the item and
the grand total. -/
def TimelineAggregate.addEntry (a : TimelineAggregate M) (c : TimelineCall M) :
    TimelineAggregate M :=
  let timeline :=
    match a.timeline.getLast? with
    | some item =>
        if item.time = c.timeWindow then a.timeline
        else a.timeline ++ [⟨c.timeWindow, [], 0, 0⟩]
    | none => a.timeline ++ [⟨c.timeWindow, [], 0, 0⟩]
  let value := a.scale.durationToValue c.latency
  { a with
    timeline := modifyLast
      (fun item => (item.record c.metric value).updateCounters c.isError c.usersNow)
      timeline
    total := (a.total.record c.metric value).updateCounters c.isError c.usersNow }

/-- `TimelineAggregate::flush`: the grand total and the timeline items. -/
def TimelineAggregate.flush (a : TimelineAggregate M) :
    TimelineItem M × List (TimelineItem M) :=
  (a.total, a.timeline)

/-- Total number of storage records across a list of timeline items. -/
def storageCount (l : List (TimelineItem M)) : Nat :=
  (l.map fun i => i.storage.length).sum

/-- `modifyLast` under a function that grows the storage of an item by one
record grows the total storage count of a nonempty list by one. -/
theorem storageCount_modifyLast (f : TimelineItem M → TimelineItem M)
    (hf : ∀ x, (f x).storage.length = x.storage.length + 1) :
    ∀ l : List (TimelineItem M), l ≠ [] →
      storageCount (modifyLast f l) = storageCount l + 1
  | [], h => absurd rfl h
  | [x], _ => by simp [modifyLast, storageCount, hf]
  | x :: y :: xs, _ => by
    have ih := storageCount_modifyLast f hf (y :: xs) (by simp)
    simp only [modifyLast, storageCount, List.map_cons, List.sum_cons] at ih ⊢
    omega

/-- One `add_entry` call adds exactly one record to the grand total and
one record to the timeline. -/
theorem addEntry_counts (a : TimelineAggregate M) (c : TimelineCall M) :
    (a.addEntry c).total.storage.length = a.total.storage.length + 1 ∧
    storageCount (a.addEntry c).timeline = storageCount a.timeline + 1 := by
  have hf : ∀ x : TimelineItem M,
      ((x.record c.metric (a.scale.durationToValue c.latency)).updateCounters
        c.isError c.usersNow).storage.length = x.storage.length + 1 := by
    intro x
    simp [TimelineItem.record, TimelineItem.updateCounters]
  constructor
  · simp [TimelineAggregate.addEntry, TimelineItem.record, TimelineItem.updateCounters]
  · unfold TimelineAggregate.addEntry
    rcases hlast : a.timeline.getLast? with _ | item
    · have hnil : a.timeline = [] := List.getLast?_eq_none_iff.mp hlast
      have hmod := storageCount_modifyLast _ hf
        [(⟨c.timeWindow, [], 0, 0⟩ : TimelineItem M)] (by simp)
      simp only [hlast, hnil, List.nil_append]
      rw [hmod]
      simp [storageCount]
    · by_cases htime : item.time = c.timeWindow
      · have hne : a.timeline ≠ [] := by
          intro h; rw [h] at hlast; simp at hlast
        have hmod := storageCount_modifyLast _ hf a.timeline hne
        simp only [hlast, if_pos htime]
        rw [hmod]
      · have hmod := storageCount_modifyLast _ hf
          (a.timeline ++ [(⟨c.timeWindow, [], 0, 0⟩ : TimelineItem M)]) (by simp)
        simp only [hlast, if_neg htime]
        rw [hmod]
        simp [storageCount]

/-- C4: after any sequence of `add_entry` calls on a freshly built timeline
aggregate, the grand-total item's storage record count equals the sum of
the storage record counts of all timeline items. -/
theorem c4_total_storage_count (M : Type) (scale : AggregateScale) (t0 : Nat)
    (calls : List (TimelineCall M)) :
    ((calls.foldl TimelineAggregate.addEntry
        (TimelineAggregateBuilder.build scale t0)).flush.1).storage.length =
      storageCount ((calls.foldl TimelineAggregate.addEntry
        (TimelineAggregateBuilder.build scale t0)).flush.2) := by
  suffices h : ∀ (calls : List (TimelineCall M)) (a : TimelineAggregate M),
      a.total.storage.length = storageCount a.timeline →
      (calls.foldl TimelineAggregate.addEntry a).total.storage.length =
        storageCount (calls.foldl TimelineAggregate.addEntry a).timeline by
    exact h calls _ (by simp [TimelineAggregateBuilder.build, storageCount])
  intro calls
  induction calls with
  | nil => intro a ha; simpa using ha
  | cons c rest ih =>
    intro a ha
    have hstep := addEntry_counts a c
    exact ih (a.addEntry c) (by omega)

/-! ### The shared virtual-user counter (profusion/src/aggregate/timeline/aggregate.rs)

`Counter` wraps an `Arc<AtomicUsize>`: `Counter::new` starts at zero
without incrementing, `Clone for Counter` increments (`fetch_add`, which
wraps modulo `2 ^ 64`), and `Drop for Counter` decrements (`fetch_sub`,
which wraps at zero).  The builder owns one `Counter` handle (created by
`new`, so never counted) and every `build()` clones it; dropping either an
aggregate or the builder runs `Counter::drop`.  The family is modelled as
a transition system over these operations.
-/

/-- Wrapping decrement of the shared `AtomicUsize` (`fetch_sub(1)` wraps
from zero to `usize::MAX`). -/
def counterDecrement (c : Nat) : Nat := if c = 0 then U64 - 1 else c - 1

/-- Operations of a timeline-aggregate family that touch or read the
shared counter. -/
inductive FamilyOp where
  | build
  | dropAggregate
  | dropBuilder
  | addEntry
deriving DecidableEq, Repr

/-- Observable state of a family: the shared counter value, the number of
live built aggregates, and whether the builder itself is still alive. -/
structure FamilyState where
  counter : Nat
  liveAggregates : Nat
  builderLive : Bool
deriving DecidableEq, Repr

/-- State right after `TimelineAggregateBuilder::with_settings`:
`Counter::new` starts the atomic at zero. -/
def FamilyState.start : FamilyState := ⟨0, 0, true⟩

/-- One family operation: `build` clones the counter (wrapping increment),
dropping an aggregate or the builder runs `Counter::drop` (wrapping
decrement), `add_entry` only reads the counter.  Operations are only
enabled while their subject is alive. -/
def familyStep (s : FamilyState) : FamilyOp → Option FamilyState
  | .build =>
      if s.builderLive then
        some ⟨(s.counter + 1) % U64, s.liveAggregates + 1, true⟩
      else none
  | .dropAggregate =>
      if 0 < s.liveAggregates then
        some ⟨counterDecrement s.counter, s.liveAggregates - 1, s.builderLive⟩
      else none
  | .dropBuilder =>
      if s.builderLive then
        some ⟨counterDecrement s.counter, s.liveAggregates, false⟩
      else none
  | .addEntry => some s

/-- Run a family from its start state through a sequence of operations. -/
def familyRun (ops : List FamilyOp) : Option FamilyState :=
  ops.foldlM familyStep FamilyState.start

/-- The counter invariant: while the builder is alive the counter equals
the number of live aggregates (modulo `2 ^ 64`); once the builder has been
dropped the counter sits one (wrapping) decrement below that number. -/
def familyInv (s : FamilyState) : Prop :=
  (s.builderLive = true → s.counter = s.liveAggregates % U64) ∧
  (s.builderLive = false → s.counter = counterDecrement (s.liveAggregates % U64))

/-- Every enabled family operation preserves the counter invariant. -/
theorem familyStep_inv (s s' : FamilyState) (op : FamilyOp)
    (h : familyStep s op = some s') (hinv : familyInv s) : familyInv s' := by
  have hU : U64 = 18446744073709551616 := by norm_num [U64]
  unfold familyInv at hinv ⊢
  cases op <;> simp only [familyStep] at h
  case build =>
    split at h
    case isTrue hb =>
      rw [Option.some.injEq] at h
      subst h
      have h1 := hinv.1 hb
      refine ⟨fun _ => ?_, fun hc => by simp at hc⟩
      show (s.counter + 1) % U64 = (s.liveAggregates + 1) % U64
      rw [h1]
      simp only [hU]
      omega
    case isFalse hb => exact absurd h (by simp)
  case dropAggregate =>
    split at h
    case isTrue hl =>
      rw [Option.some.injEq] at h
      subst h
      constructor
      · intro hb
        have h1 := hinv.1 hb
        show counterDecrement s.counter = (s.liveAggregates - 1) % U64
        rw [h1]
        simp only [counterDecrement, hU]
        split_ifs <;> omega
      · intro hb
        have h2 := hinv.2 hb
        show counterDecrement s.counter = counterDecrement ((s.liveAggregates - 1) % U64)
        rw [h2]
        simp only [counterDecrement, hU]
        split_ifs <;> first | omega | exact absurd (‹False›) not_false
    case isFalse hl => exact absurd h (by simp)
  case dropBuilder =>
    split at h
    case isTrue hb =>
      rw [Option.some.injEq] at h
      subst h
      refine ⟨fun hc => by simp at hc, fun _ => ?_⟩
      have h1 := hinv.1 hb
      show counterDecrement s.counter = counterDecrement (s.liveAggregates % U64)
      rw [h1]
    case isFalse hb => exact absurd h (by simp)
  case addEntry =>
    rw [Option.some.injEq] at h
    subst h
    exact hinv

/-- Runs from an invariant-satisfying state preserve the invariant. -/
theorem familyRun_inv : ∀ (ops : List FamilyOp) (a s : FamilyState),
    ops.foldlM familyStep a = some s → familyInv a → familyInv s
  | [], a, s, h, hinv => by
    rw [List.foldlM_nil] at h
    rw [show (pure a : Option FamilyState) = some a from rfl, Option.some.injEq] at h
    exact h ▸ hinv
  | op :: rest, a, s, h, hinv => by
    rw [List.foldlM_cons] at h
    rcases hstep : familyStep a op with _ | b
    · rw [hstep] at h
      rw [show ((none : Option FamilyState) >>= fun b =>
        List.foldlM familyStep b rest) = none from rfl] at h
      exact absurd h (by simp)
    · rw [hstep] at h
      rw [show ((some b : Option FamilyState) >>= fun b =>
        List.foldlM familyStep b rest) = List.foldlM familyStep b rest from rfl] at h
      exact familyRun_inv rest b s h (familyStep_inv a b op hstep hinv)

/-- C8 counterexample: the claim says no operation other than building or
dropping an aggregate changes the counter, but dropping the *builder* also
runs `Counter::drop`: after `build` followed by `dropBuilder` the counter
is `0` while one aggregate is still live. -/
theorem c8_counter_counterexample :
    familyRun [.build, .dropBuilder] = some ⟨0, 1, false⟩ ∧
      (0 : Nat) ≠ 1 := by
  exact ⟨by decide, by decide⟩

/-- C8 (amended): while the builder is alive, the shared counter equals
the number of live aggregates (modulo `2 ^ 64`): building increments it,
dropping an aggregate decrements it, and `add_entry` reads it without
changing it; but dropping the builder also decrements it, leaving the
counter one wrapping decrement below the live-aggregate count afterwards. -/
theorem c8_counter_tracks_live_aggregates (ops : List FamilyOp) (s : FamilyState)
    (h : familyRun ops = some s) (hb : s.builderLive = true) :
    s.counter = s.liveAggregates % U64 := by
  have hinv := familyRun_inv ops FamilyState.start s h
    (by constructor <;> intro h' <;> simp [FamilyState.start] at h' ⊢)
  exact hinv.1 hb

/-- C8 witness: building twice and dropping one aggregate leaves the
counter at the live-aggregate count `1`. -/
theorem c8_counter_tracks_live_aggregates_witness :
    (1 : Nat) = 1 % U64 :=
  c8_counter_tracks_live_aggregates [.build, .build, .dropAggregate] ⟨1, 1, true⟩
    (by decide) rfl

/-! ### Closure steps and the sequence future (src/executor/step/closure.rs,
src/executor/future/measured.rs, src/executor/future/sequence.rs)

A closure step's wrapped async function is modelled by the pair of its
running time (nanoseconds on the monotonic clock) and its `io::Result`,
per input value; an error result carries only its `ErrorKind`, which is
all the event classification reads.  `MeasuredFuture` wraps the inner
future: it stamps the start instant on first poll and, when the inner
future resolves, appends one event classified from the result.
`SequenceFuture::poll` is driven to completion: it launches the first
step on the initial arguments, and inspects `(kind, result)`: a left
`Ok` launches the second step on the accumulated events and value, any
`Err` returns immediately.
-/

/-- The `std::io::ErrorKind` values that appear in the sources; the
classification only distinguishes `TimedOut` from the rest. -/
inductive ErrKind where
  | TimedOut
  | Interrupted
  | ConnectionReset
  | InvalidInput
  | OtherKind
deriving DecidableEq, Repr

/-- Event kind derived from an `io::Result`, as in the
`From<(&str, Instant, Instant, &Result<T>)> for Event` implementation:
`Success` on `Ok`, `Timeout` on an `ErrorKind::TimedOut` error, `Error`
otherwise. -/
def resultEventKind : Except ErrKind α → EventType
  | .ok _ => .Success
  | .error .TimedOut => .Timeout
  | .error _ => .Error

/-- The event pushed by `MeasuredFutureState::finish_timer`. -/
def eventOfResult (name : String) (start finish : Nat) (r : Except ErrKind α) : Event :=
  ⟨name, start, finish, resultEventKind r⟩

/-- A `ClosureStep`: its name and the behaviour of the wrapped async
function, given per input as running time and result. -/
structure ClosureStep (T : Type) where
  name : String
  inner : T → Nat × Except ErrKind T

/-- `ClosureStep::execute` run to completion through `MeasuredFuture`:
starting at instant `now`, the inner future resolves after its running
time, and exactly one event named after the step and classified from the
result is appended to the threaded event list. -/
def ClosureStep.execute (s : ClosureStep T) (events : List Event) (value : T)
    (now : Nat) : List Event × Except ErrKind T × Nat :=
  let r := s.inner value
  (events ++ [eventOfResult s.name now (now + r.1) r.2], r.2, now + r.1)

/-- `SequenceFuture` over two closure steps, polled to completion:
run the first step; on `Ok` run the second step on the first step's
events and value; on `Err` return the first step's events and error
without executing the second step. -/
def SequenceFuture.run (first second : ClosureStep T) (events : List Event) (value : T)
    (now : Nat) : List Event × Except ErrKind T × Nat :=
  match first.execute events value now with
  | (events1, .ok v1, t1) => second.execute events1 v1 t1
  | (events1, .error e, t1) => (events1, .error e, t1)

/-- C9: when the first step fails, the sequence returns its error with
only the first step's event appended (the second step contributes no
event); when the first step succeeds, both events are appended in
execution order, the second starting at the first's finish instant; and a
closure step's event kind is `Success` on `Ok`, `Timeout` on a `TimedOut`
error, and `Error` on any other error. -/
theorem c9_sequence_short_circuit {T : Type} (first second : ClosureStep T)
    (events : List Event) (value : T) (now : Nat) :
    (∀ d e, first.inner value = (d, .error e) →
      SequenceFuture.run first second events value now =
        (events ++ [eventOfResult first.name now (now + d) (Except.error (α := T) e)],
          .error e, now + d)) ∧
    (∀ d v1, first.inner value = (d, .ok v1) →
      SequenceFuture.run first second events value now =
        (events ++
          [eventOfResult first.name now (now + d) (.ok v1),
            eventOfResult second.name (now + d) (now + d + (second.inner v1).1)
              (second.inner v1).2],
          (second.inner v1).2, now + d + (second.inner v1).1)) ∧
    (∀ (r : Except ErrKind T) (name : String) (s f : Nat),
      (∀ v, r = .ok v → (eventOfResult name s f r).kind = .Success) ∧
      (r = .error .TimedOut → (eventOfResult name s f r).kind = .Timeout) ∧
      (∀ e, e ≠ ErrKind.TimedOut → r = .error e →
        (eventOfResult name s f r).kind = .Error)) := by
  refine ⟨?_, ?_, ?_⟩
  · intro d e h
    simp [SequenceFuture.run, ClosureStep.execute, h]
  · intro d v1 h
    simp [SequenceFuture.run, ClosureStep.execute, h]
  · intro r name s f
    refine ⟨?_, ?_, ?_⟩
    · intro v h
      simp [h, eventOfResult, resultEventKind]
    · intro h
      simp [h, eventOfResult, resultEventKind]
    · intro e hne h
      subst h
      cases e
      case TimedOut => exact absurd rfl hne
      all_goals simp [eventOfResult, resultEventKind]

/-- C9 witness: a failing first step short-circuits a concrete sequence,
and a succeeding one threads both events. -/
theorem c9_sequence_short_circuit_witness :
    SequenceFuture.run (T := Nat) ⟨"first", fun _ => (5, .error .Interrupted)⟩
      ⟨"second", fun v => (3, .ok (v + 2))⟩ [] 40 100 =
      ([⟨"first", 100, 105, .Error⟩], .error .Interrupted, 105) ∧
    SequenceFuture.run (T := Nat) ⟨"first", fun v => (5, .ok (v + 2))⟩
      ⟨"second", fun v => (3, .ok (v + 2))⟩ [] 40 100 =
      ([⟨"first", 100, 105, .Success⟩, ⟨"second", 105, 108, .Success⟩], .ok 44, 108) := by
  constructor
  · have h := (c9_sequence_short_circuit (T := Nat)
      ⟨"first", fun _ => (5, .error .Interrupted)⟩
      ⟨"second", fun v => (3, .ok (v + 2))⟩ [] 40 100).1 5 .Interrupted rfl
    rw [h]
    rfl
  · have h := (c9_sequence_short_circuit (T := Nat)
      ⟨"first", fun v => (5, .ok (v + 2))⟩
      ⟨"second", fun v => (3, .ok (v + 2))⟩ [] 40 100).2.1 5 42 rfl
    rw [h]
    rfl

/-! ### TimelineAggregate::merge_into (profusion/src/aggregate/timeline/aggregate.rs)

`merge_into` walks `self.timeline` and, for each item, binary-searches
`other.timeline` (ordered by the bucket key alone, the `Ord` of
`TimelineItem`): on `Ok(pos)` the item is merged into the found slot, on
`Err(pos)` it is inserted there.  `other.total` is never touched.
-/

/-- Rust's `slice::binary_search` loop over the bucket keys: compare the
middle element of `[left, right)`, narrow to the half that can contain the
key, return `Ok` at an equal element or `Err` with the insertion point
once the interval is empty. -/
def binarySearchAux (key : Nat) (ts : List Nat) (left right : Nat) : Except Nat Nat :=
  if _h : left < right then
    if ts.getD (left + (right - left) / 2) 0 < key then
      binarySearchAux key ts (left + (right - left) / 2 + 1) right
    else if key < ts.getD (left + (right - left) / 2) 0 then
      binarySearchAux key ts left (left + (right - left) / 2)
    else .ok (left + (right - left) / 2)
  else .error left
termination_by right - left
decreasing_by
  · omega
  · omega

/-- `Vec::binary_search` over the whole list of bucket keys. -/
def binarySearchTimes (key : Nat) (ts : List Nat) : Except Nat Nat :=
  binarySearchAux key ts 0 ts.length

/-- Correctness of the binary-search loop on a strictly increasing key
list, relative to the invariant that everything left of `left` is below
the key and everything from `right` on is above it. -/
theorem binarySearchAux_spec (key : Nat) (ts : List Nat)
    (hsort : ∀ i j, i < ts.length → j < ts.length → i < j → ts.getD i 0 < ts.getD j 0)
    (left right : Nat) (h1 : left ≤ right) (h2 : right ≤ ts.length)
    (hlo : ∀ i, i < left → ts.getD i 0 < key)
    (hhi : ∀ i, right ≤ i → i < ts.length → key < ts.getD i 0) :
    (match binarySearchAux key ts left right with
     | .ok m => m < ts.length ∧ ts.getD m 0 = key
     | .error j => left ≤ j ∧ j ≤ right ∧ (∀ i, i < j → ts.getD i 0 < key) ∧
         (∀ i, j ≤ i → i < ts.length → key < ts.getD i 0)) := by
  by_cases hlr : left < right
  · rw [binarySearchAux, dif_pos hlr]
    by_cases hmidlt : ts.getD (left + (right - left) / 2) 0 < key
    · rw [if_pos hmidlt]
      have hrec := binarySearchAux_spec key ts hsort
        (left + (right - left) / 2 + 1) right (by omega) h2
        (fun i hi => by
          rcases Nat.lt_trichotomy i (left + (right - left) / 2) with h | h | h
          · exact lt_trans (hsort i (left + (right - left) / 2) (by omega) (by omega) h)
              hmidlt
          · exact h ▸ hmidlt
          · omega)
        hhi
      rcases hbs : binarySearchAux key ts (left + (right - left) / 2 + 1) right with j | m
      · rw [hbs] at hrec
        exact ⟨by omega, hrec.2.1, hrec.2.2.1, hrec.2.2.2⟩
      · rw [hbs] at hrec
        exact hrec
    · rw [if_neg hmidlt]
      by_cases hmidgt : key < ts.getD (left + (right - left) / 2) 0
      · rw [if_pos hmidgt]
        have hrec := binarySearchAux_spec key ts hsort
          left (left + (right - left) / 2) (by omega) (by omega) hlo
          (fun i hi hil => by
            rcases Nat.lt_or_ge i (left + (right - left) / 2 + 1) with h | h
            · have hieq : i = left + (right - left) / 2 := by omega
              exact hieq ▸ hmidgt
            · exact lt_trans hmidgt
                (hsort (left + (right - left) / 2) i (by omega) hil (by omega)))
        rcases hbs : binarySearchAux key ts left (left + (right - left) / 2) with j | m
        · rw [hbs] at hrec
          exact ⟨hrec.1, by omega, hrec.2.2.1, hrec.2.2.2⟩
        · rw [hbs] at hrec
          exact hrec
      · rw [if_neg hmidgt]
        exact ⟨by omega, by omega⟩
  · rw [binarySearchAux, dif_neg hlr]
    exact ⟨Nat.le_refl left, by omega, fun i hi => hlo i hi,
      fun i hi hil => hhi i (by omega) hil⟩
termination_by right - left
decreasing_by
  · omega
  · omega

/-- The bucket keys of a timeline, in order. -/
def timesOf (l : List (TimelineItem M)) : List Nat := l.map TimelineItem.time

/-- Strictly increasing bucket keys (the shape `add_entry` maintains under
a monotone clock, and the precondition for `Vec::binary_search`). -/
def timeSorted (l : List (TimelineItem M)) : Prop :=
  List.Pairwise (· < ·) (timesOf l)

/-- `Vec::insert` at position `i ≤ l.length`. -/
def insertAt (l : List α) (i : Nat) (x : α) : List α := l.take i ++ x :: l.drop i

/-- One iteration of the `merge_into` loop, from the source: binary-search
the accumulated timeline for the item's bucket key; merge in place on
`Ok`, insert at the returned position on `Err`. -/
def mergeStep (acc : List (TimelineItem M)) (item : TimelineItem M) :
    List (TimelineItem M) :=
  match binarySearchTimes item.time (timesOf acc) with
  | .ok pos => acc.set pos (item.mergeInto (acc.getD pos ⟨0, [], 0, 0⟩))
  | .error pos => insertAt acc pos item

/-- `TimelineAggregate::merge_into`: fold `self.timeline` into
`other.timeline`; `other.total` (and everything else in `other`) is left
unchanged. -/
def TimelineAggregate.mergeInto (self other : TimelineAggregate M) :
    TimelineAggregate M :=
  { other with timeline := self.timeline.foldl mergeStep other.timeline }

/-- First index whose bucket key equals `key`.  Written from the claim's
words ("an item whose bucket key is present in B's timeline is merged in
place") for comparison with the binary search of the source. -/
def firstMatchIdx (key : Nat) : List (TimelineItem M) → Option Nat
  | [] => none
  | x :: xs => if x.time = key then some 0 else (firstMatchIdx key xs).map (· + 1)

/-- One merge step as the claim describes it: if an item with the same
bucket key is present, merge into it in place; otherwise insert the item
before the first larger key (its sorted position).  Written from the
claim's words for comparison with `mergeStep`, which is written from the
source. -/
def specMergeStep (acc : List (TimelineItem M)) (item : TimelineItem M) :
    List (TimelineItem M) :=
  match firstMatchIdx item.time acc with
  | some i => acc.set i (item.mergeInto (acc.getD i ⟨0, [], 0, 0⟩))
  | none =>
      acc.takeWhile (fun x => decide (x.time < item.time)) ++
        item :: acc.dropWhile (fun x => decide (x.time < item.time))

/-- Bucket key of an indexed timeline element. -/
theorem timesOf_getD (l : List (TimelineItem M)) (i : Nat) (h : i < l.length) :
    (timesOf l).getD i 0 = (l.getD i ⟨0, [], 0, 0⟩).time := by
  unfold timesOf
  rw [List.getD_eq_getElem (l.map TimelineItem.time) 0 (by simpa using h),
    List.getD_eq_getElem l ⟨0, [], 0, 0⟩ h, List.getElem_map]

/-- A sorted timeline gives the indexed ordering the binary search needs. -/
theorem timeSorted_index (l : List (TimelineItem M)) (hs : timeSorted l) :
    ∀ i j, i < (timesOf l).length → j < (timesOf l).length → i < j →
      (timesOf l).getD i 0 < (timesOf l).getD j 0 := by
  intro i j hi hj hij
  rw [List.getD_eq_getElem (timesOf l) 0 hi, List.getD_eq_getElem (timesOf l) 0 hj]
  exact List.pairwise_iff_getElem.mp hs i j hi hj hij

/-- On a sorted timeline, the element found at the key is the first (and
only) match. -/
theorem firstMatchIdx_eq_some (key : Nat) :
    ∀ (l : List (TimelineItem M)) (m : Nat), timeSorted l → m < l.length →
      (timesOf l).getD m 0 = key → firstMatchIdx key l = some m
  | [], m, _, hm, _ => absurd hm (by simp)
  | x :: xs, 0, _, _, hkey => by
    simp only [timesOf, List.map_cons, List.getD_cons_zero] at hkey
    simp [firstMatchIdx, hkey]
  | x :: xs, m + 1, hs, hm, hkey => by
    simp only [timesOf, List.map_cons, List.getD_cons_succ] at hkey
    have hs' := List.pairwise_cons.mp hs
    have hmlen : m < (timesOf xs).length := by
      unfold timesOf
      rw [List.length_map]
      simp only [List.length_cons] at hm
      omega
    have hmem : (timesOf xs).getD m 0 ∈ timesOf xs := by
      rw [List.getD_eq_getElem (timesOf xs) 0 hmlen]
      exact List.getElem_mem _
    have hlt : x.time < (timesOf xs).getD m 0 := hs'.1 _ hmem
    have hne : ¬ x.time = key := by
      intro hx
      unfold timesOf at hlt
      rw [hx, hkey] at hlt
      exact lt_irrefl key hlt
    have ih := firstMatchIdx_eq_some key xs m hs'.2 (Nat.lt_of_succ_lt_succ hm) hkey
    simp [firstMatchIdx, hne, ih]

/-- When no bucket key equals the key, the linear search fails. -/
theorem firstMatchIdx_eq_none (key : Nat) :
    ∀ l : List (TimelineItem M),
      (∀ i, i < l.length → (timesOf l).getD i 0 ≠ key) → firstMatchIdx key l = none
  | [], _ => rfl
  | x :: xs, h => by
    have h0 := h 0 (by simp)
    simp only [timesOf, List.map_cons, List.getD_cons_zero] at h0
    have ih := firstMatchIdx_eq_none key xs (fun i hi => by
      have := h (i + 1) (by simpa using Nat.succ_lt_succ hi)
      simpa [timesOf] using this)
    simp [firstMatchIdx, h0, ih]

/-- `Vec::insert` at the position the binary search returns coincides with
inserting before the first larger bucket key. -/
theorem insertAt_eq_takeWhile (item : TimelineItem M) :
    ∀ (l : List (TimelineItem M)) (j : Nat), j ≤ l.length →
      (∀ i, i < j → (timesOf l).getD i 0 < item.time) →
      (∀ i, j ≤ i → i < l.length → item.time < (timesOf l).getD i 0) →
      insertAt l j item =
        l.takeWhile (fun x => decide (x.time < item.time)) ++
          item :: l.dropWhile (fun x => decide (x.time < item.time))
  | [], j, hj, _, _ => by
    have : j = 0 := by simpa using hj
    subst this
    simp [insertAt]
  | x :: xs, 0, _, _, hhi => by
    have h0 := hhi 0 (Nat.zero_le 0) (by simp)
    simp only [timesOf, List.map_cons, List.getD_cons_zero] at h0
    have hx : ¬ x.time < item.time := by omega
    simp [insertAt, List.takeWhile_cons, List.dropWhile_cons, hx]
  | x :: xs, j + 1, hj, hlo, hhi => by
    have h0 := hlo 0 (Nat.succ_pos j)
    simp only [timesOf, List.map_cons, List.getD_cons_zero] at h0
    have ih := insertAt_eq_takeWhile item xs j (by simpa using hj)
      (fun i hi => by
        have := hlo (i + 1) (Nat.succ_lt_succ hi)
        simpa [timesOf] using this)
      (fun i hi hil => by
        have := hhi (i + 1) (Nat.succ_le_succ hi) (by simpa using Nat.succ_lt_succ hil)
        simpa [timesOf] using this)
    calc insertAt (x :: xs) (j + 1) item = x :: insertAt xs j item := by
          simp [insertAt]
      _ = x :: (xs.takeWhile (fun y => decide (y.time < item.time)) ++
            item :: xs.dropWhile (fun y => decide (y.time < item.time))) := by rw [ih]
      _ = _ := by
          rw [List.takeWhile_cons_of_pos (by simpa using h0),
            List.dropWhile_cons_of_pos (by simpa using h0)]
          simp

/-- Replacing an element by one with the same bucket key keeps the
timeline sorted. -/
theorem timeSorted_set_same (l : List (TimelineItem M)) (i : Nat) (v : TimelineItem M)
    (hi : i < l.length) (hv : v.time = (l.getD i ⟨0, [], 0, 0⟩).time)
    (hs : timeSorted l) : timeSorted (l.set i v) := by
  unfold timeSorted timesOf at hs ⊢
  rw [List.map_set]
  have hi' : i < (l.map TimelineItem.time).length := by simpa using hi
  have hvt : v.time = (l.map TimelineItem.time)[i] := by
    rw [List.getElem_map, hv, List.getD_eq_getElem l ⟨0, [], 0, 0⟩ hi]
  rw [List.pairwise_iff_getElem] at hs ⊢
  intro a b ha hb hab
  simp only [List.length_set] at ha hb
  simp only [List.getElem_set]
  split_ifs with h1 h2 h2
  · omega
  · subst h1
    have hlt := hs i b hi' hb hab
    rw [← hvt] at hlt
    exact hlt
  · subst h2
    have hlt := hs a i ha hi' hab
    rw [← hvt] at hlt
    exact hlt
  · exact hs a b ha hb hab

/-- Membership in an insertion. -/
theorem mem_insertAt (l : List α) (j : Nat) (x y : α) (h : y ∈ insertAt l j x) :
    y = x ∨ y ∈ l := by
  unfold insertAt at h
  rcases List.mem_append.mp h with h | h
  · exact Or.inr (List.take_subset _ _ h)
  · rcases List.mem_cons.mp h with h | h
    · exact Or.inl h
    · exact Or.inr (List.drop_subset _ _ h)

/-- Inserting at the binary-search position keeps the timeline sorted. -/
theorem timeSorted_insertAt (item : TimelineItem M) :
    ∀ (l : List (TimelineItem M)) (j : Nat), j ≤ l.length → timeSorted l →
      (∀ i, i < j → (timesOf l).getD i 0 < item.time) →
      (∀ i, j ≤ i → i < l.length → item.time < (timesOf l).getD i 0) →
      timeSorted (insertAt l j item)
  | [], j, hj, _, _, _ => by
    have : j = 0 := by simpa using hj
    subst this
    simp [insertAt, timeSorted, timesOf]
  | x :: xs, 0, _, hs, _, hhi => by
    have h0 := hhi 0 (Nat.zero_le 0) (by simp)
    simp only [timesOf, List.map_cons, List.getD_cons_zero] at h0
    unfold timeSorted timesOf at hs ⊢
    simp only [insertAt, List.take_zero, List.drop_zero, List.nil_append, List.map_cons]
    refine List.Pairwise.cons ?_ hs
    intro b hb
    rcases List.mem_cons.mp hb with hb | hb
    · omega
    · have := (List.pairwise_cons.mp hs).1 b hb
      omega
  | x :: xs, j + 1, hj, hs, hlo, hhi => by
    have h0 := hlo 0 (Nat.succ_pos j)
    simp only [timesOf, List.map_cons, List.getD_cons_zero] at h0
    have hs0 : List.Pairwise (· < ·) (x.time :: List.map TimelineItem.time xs) := by
      unfold timeSorted timesOf at hs
      simpa using hs
    have hs' := List.pairwise_cons.mp hs0
    have ih := timeSorted_insertAt item xs j (by simpa using hj)
      (by unfold timeSorted; exact hs'.2)
      (fun i hi => by
        have := hlo (i + 1) (Nat.succ_lt_succ hi)
        simpa [timesOf] using this)
      (fun i hi hil => by
        have := hhi (i + 1) (Nat.succ_le_succ hi) (by simpa using Nat.succ_lt_succ hil)
        simpa [timesOf] using this)
    unfold timeSorted timesOf at ih ⊢
    simp only [insertAt, List.take_succ_cons, List.drop_succ_cons, List.cons_append,
      List.map_cons]
    refine List.Pairwise.cons ?_ ih
    intro b hb
    rcases List.mem_map.mp hb with ⟨it, hit, hbt⟩
    rcases mem_insertAt xs j item it hit with hi | hi
    · subst hi
      omega
    · have := hs'.1 it.time (List.mem_map.mpr ⟨it, hi, rfl⟩)
      omega

/-- On a sorted timeline, one step of the source's merge loop coincides
with the claim's linear description, and keeps the timeline sorted. -/
theorem mergeStep_eq_spec (acc : List (TimelineItem M)) (item : TimelineItem M)
    (hs : timeSorted acc) :
    mergeStep acc item = specMergeStep acc item ∧
      timeSorted (specMergeStep acc item) := by
  have hlen : (timesOf acc).length = acc.length := by simp [timesOf]
  have hspec := binarySearchAux_spec item.time (timesOf acc) (timeSorted_index acc hs)
    0 (timesOf acc).length (Nat.zero_le _) (Nat.le_refl _)
    (fun i hi => absurd hi (Nat.not_lt_zero i))
    (fun i hi hil => absurd (Nat.lt_of_le_of_lt hi hil) (lt_irrefl _))
  have hspec2 : (match binarySearchTimes item.time (timesOf acc) with
      | .ok m => m < (timesOf acc).length ∧ (timesOf acc).getD m 0 = item.time
      | .error j => 0 ≤ j ∧ j ≤ (timesOf acc).length ∧
          (∀ i, i < j → (timesOf acc).getD i 0 < item.time) ∧
          (∀ i, j ≤ i → i < (timesOf acc).length →
            item.time < (timesOf acc).getD i 0)) := hspec
  rcases hbs : binarySearchTimes item.time (timesOf acc) with j | m
  · rw [hbs] at hspec2
    obtain ⟨-, hjle, hlo, hhi⟩ := hspec2
    have hjle' : j ≤ acc.length := by rwa [hlen] at hjle
    have hhi' : ∀ i, j ≤ i → i < acc.length → item.time < (timesOf acc).getD i 0 :=
      fun i hi hil => hhi i hi (by rwa [hlen])
    have hnone : firstMatchIdx item.time acc = none :=
      firstMatchIdx_eq_none item.time acc (fun i hi => by
        rcases Nat.lt_or_ge i j with h | h
        · exact Nat.ne_of_lt (hlo i h)
        · exact Nat.ne_of_gt (hhi' i h hi))
    have hins := insertAt_eq_takeWhile item acc j hjle' hlo hhi'
    constructor
    · unfold mergeStep specMergeStep
      rw [hbs, hnone]
      exact hins
    · unfold specMergeStep
      rw [hnone]
      exact hins ▸ timeSorted_insertAt item acc j hjle' hs hlo hhi'
  · rw [hbs] at hspec2
    obtain ⟨hmlen, hmkey⟩ := hspec2
    have hm : m < acc.length := by rwa [hlen] at hmlen
    have hfirst : firstMatchIdx item.time acc = some m :=
      firstMatchIdx_eq_some item.time acc m hs hm hmkey
    constructor
    · unfold mergeStep specMergeStep
      rw [hbs, hfirst]
    · unfold specMergeStep
      rw [hfirst]
      exact timeSorted_set_same acc m _ hm rfl hs

/-- Folding the source's merge loop over a sorted accumulator coincides
with folding the claim's description. -/
theorem foldl_mergeStep_eq_spec :
    ∀ (items acc : List (TimelineItem M)), timeSorted acc →
      items.foldl mergeStep acc = items.foldl specMergeStep acc
  | [], _, _ => rfl
  | it :: rest, acc, hs => by
    have h := mergeStep_eq_spec acc it hs
    rw [List.foldl_cons, List.foldl_cons, h.1]
    exact foldl_mergeStep_eq_spec rest (specMergeStep acc it) h.2

/-- C5: `A.merge_into(B)` leaves B's grand total (and settings) untouched
and processes each of A's timeline items in order against B's sorted
timeline: an item whose bucket key is present is merged in place
(storage-merge, error counts summed, maximum of user counts, bucket key
kept), and an item whose key is absent is inserted at its sorted
position. -/
theorem c5_merge_into_spec (A B : TimelineAggregate M) (hs : timeSorted B.timeline) :
    (A.mergeInto B).total = B.total ∧
    (A.mergeInto B).scale = B.scale ∧
    (A.mergeInto B).timeline = A.timeline.foldl specMergeStep B.timeline ∧
    (∀ x y : TimelineItem M, x.mergeInto y =
      ⟨y.time, y.storage ++ x.storage, y.errors + x.errors, max y.users x.users⟩) := by
  refine ⟨rfl, rfl, ?_, fun x y => rfl⟩
  unfold TimelineAggregate.mergeInto
  exact foldl_mergeStep_eq_spec A.timeline B.timeline hs

/-- C5 witness: a concrete merge where the bucket at key 100 merges in
place, the bucket at key 200 is inserted between B's buckets 100 and 300,
and B's grand total is untouched. -/
theorem c5_merge_into_spec_witness :
    (TimelineAggregate.mergeInto (M := Nat)
        ⟨.Milliseconds, [⟨100, [(1, 5)], 1, 2⟩, ⟨200, [(2, 7)], 0, 1⟩], ⟨0, [], 0, 0⟩⟩
        ⟨.Milliseconds, [⟨100, [(1, 9)], 2, 1⟩, ⟨300, [], 0, 3⟩],
          ⟨0, [(9, 9)], 4, 5⟩⟩).timeline =
      [⟨100, [(1, 9), (1, 5)], 3, 2⟩, ⟨200, [(2, 7)], 0, 1⟩, ⟨300, [], 0, 3⟩] ∧
    (TimelineAggregate.mergeInto (M := Nat)
        ⟨.Milliseconds, [⟨100, [(1, 5)], 1, 2⟩, ⟨200, [(2, 7)], 0, 1⟩], ⟨0, [], 0, 0⟩⟩
        ⟨.Milliseconds, [⟨100, [(1, 9)], 2, 1⟩, ⟨300, [], 0, 3⟩],
          ⟨0, [(9, 9)], 4, 5⟩⟩).total = ⟨0, [(9, 9)], 4, 5⟩ := by
  have h := c5_merge_into_spec (M := Nat)
    ⟨.Milliseconds, [⟨100, [(1, 5)], 1, 2⟩, ⟨200, [(2, 7)], 0, 1⟩], ⟨0, [], 0, 0⟩⟩
    ⟨.Milliseconds, [⟨100, [(1, 9)], 2, 1⟩, ⟨300, [], 0, 3⟩], ⟨0, [(9, 9)], 4, 5⟩⟩
    (by unfold timeSorted timesOf; decide)
  exact ⟨by rw [h.2.2.1]; decide, h.1⟩

end Profusion
